import Mathlib

/-!
Verification of the `FontFeatures` component
(`crates/gpui/src/text_system/font_features.rs`).

The component stores OpenType font-feature settings: a fixed table of 34
known features held in two 64-bit masks (`enabled` / `disabled`), plus two
string buffers holding the concatenated 4-character tags of unknown
features that were explicitly enabled or disabled.  It is built from a
string-keyed map (serde deserialization), projected to an ordered
`(tag, bool)` list, and serialized back to a map.

The embedding below translates the Rust code directly:
* the `create_definitions!` macro invocation becomes the concrete list
  `knownFeatures` of (name, bit-index) pairs;
* `visit_map` becomes a fold of `deserializeStep` over the entry list the
  serde `MapAccess` yields (a list of key/value pairs, in iteration order);
* `chars().chunks(4)` from itertools becomes `chunkList` / `chunks4`;
* the `cfg(target_os = "windows")` block in `serialize` becomes a
  boolean `isWindows` parameter.
Machine integers: the masks are `u64`; every write is `m ||| (1 <<< idx)`
with `idx ≤ 33`, so all values stay below `2 ^ 34` and plain `Nat`
arithmetic coincides with the wrapping `u64` arithmetic.
-/

namespace FontFeaturesModel

/-- The known-feature table generated by the `create_definitions!` macro
invocation: each OpenType feature name with its bit index, in declaration
order. -/
def knownFeatures : List (String × Nat) :=
  [("calt", 0), ("case", 1), ("cpsp", 2), ("frac", 3), ("liga", 4),
   ("onum", 5), ("ordn", 6), ("pnum", 7), ("ss01", 8), ("ss02", 9),
   ("ss03", 10), ("ss04", 11), ("ss05", 12), ("ss06", 13), ("ss07", 14),
   ("ss08", 15), ("ss09", 16), ("ss10", 17), ("ss11", 18), ("ss12", 19),
   ("ss13", 20), ("ss14", 21), ("ss15", 22), ("ss16", 23), ("ss17", 24),
   ("ss18", 25), ("ss19", 26), ("ss20", 27), ("subs", 28), ("sups", 29),
   ("swsh", 30), ("titl", 31), ("tnum", 32), ("zero", 33)]

/-- The `FontFeatures` struct: two 64-bit masks for the known features and
two string buffers of concatenated 4-character unknown tags.  Equality is
the derived four-field equality. -/
structure FontFeatures where
  enabled : Nat
  disabled : Nat
  other_enabled : String
  other_disabled : String
deriving DecidableEq

/-- The `FontFeatures::default()` value: both masks zero, both buffers
empty (the starting state of `visit_map`). -/
def emptyFeatures : FontFeatures :=
  { enabled := 0, disabled := 0, other_enabled := "", other_disabled := "" }

/-- Rust `str::is_ascii`: every character is an ASCII character. -/
def isAsciiStr (s : String) : Bool :=
  s.data.all (fun c => c.toNat ≤ 127)

/-- The `match key.as_str()` over the macro-generated arms: the bit index
of a known feature name, `none` for any other key. -/
def lookupKnown (key : String) : Option Nat :=
  (knownFeatures.find? (fun p => p.1 == key)).map (fun p => p.2)

/-- The check on the `other_feature` arm of `visit_map`: an unknown key is
kept only when `key.len() == 4 && key.is_ascii()` (Rust `len` is the UTF-8
byte length). -/
def validUnknownKey (key : String) : Bool :=
  key.utf8ByteSize == 4 && isAsciiStr key

/-- One iteration of the `while let Some((key, value))` loop of
`visit_map`: known keys set a mask bit, valid unknown keys are appended to
a buffer, malformed unknown keys are dropped (the error is only logged),
and a `null` value is a no-op in every case. -/
def deserializeStep (st : FontFeatures) (entry : String × Option Bool) : FontFeatures :=
  match lookupKnown entry.1 with
  | some idx =>
    match entry.2 with
    | some true => { st with enabled := st.enabled ||| (1 <<< idx) }
    | some false => { st with disabled := st.disabled ||| (1 <<< idx) }
    | none => st
  | none =>
    if validUnknownKey entry.1 then
      match entry.2 with
      | some true => { st with other_enabled := st.other_enabled ++ entry.1 }
      | some false => { st with other_disabled := st.other_disabled ++ entry.1 }
      | none => st
    else st

/-- `FontFeatures::deserialize` (`visit_map`): fold the loop body over the
map entries in iteration order, starting from the all-empty state.  It is
total: no input makes it fail. -/
def deserialize (entries : List (String × Option Bool)) : FontFeatures :=
  entries.foldl deserializeStep emptyFeatures

/-- The macro-generated per-feature accessor body, at bit index `idx`:
`Some(true)` when the `enabled` bit is set, otherwise `Some(false)` when
the `disabled` bit is set, otherwise `None`. -/
def getFeature (f : FontFeatures) (idx : Nat) : Option Bool :=
  if f.enabled &&& (1 <<< idx) ≠ 0 then some true
  else if f.disabled &&& (1 <<< idx) ≠ 0 then some false
  else none

/-- The generated `liga` accessor (`FontFeatures::liga`, bit 4). -/
def FontFeatures.liga (f : FontFeatures) : Option Bool :=
  getFeature f 4

/-- itertools `chars().chunks(4)`: split a character list into chunks of
four (the last chunk may be shorter). -/
def chunkList : List Char → List (List Char)
  | [] => []
  | [a] => [[a]]
  | [a, b] => [[a, b]]
  | [a, b, c] => [[a, b, c]]
  | a :: b :: c :: d :: rest => [a, b, c, d] :: chunkList rest

/-- The 4-character chunks of a buffer, as strings. -/
def chunks4 (s : String) : List String :=
  (chunkList s.data).map (fun cs => String.mk cs)

/-- `FontFeatures::tag_value_list`: push every specified known feature in
table order, then every `other_enabled` chunk with `true`, then every
`other_disabled` chunk with `false`. -/
def tag_value_list (f : FontFeatures) : List (String × Bool) :=
  let result : List (String × Bool) := []
  let result := knownFeatures.foldl
    (fun acc p =>
      match getFeature f p.2 with
      | some b => acc ++ [(p.1, b)]
      | none => acc) result
  let result := (chunks4 f.other_enabled).foldl
    (fun acc s => acc ++ [(s, true)]) result
  (chunks4 f.other_disabled).foldl
    (fun acc s => acc ++ [(s, false)]) result

/-- `FontFeatures::serialize`: emit every specified known feature in table
order; the unknown-tag chunks are emitted only when compiled with
`cfg(target_os = "windows")`, modelled by the `isWindows` flag. -/
def serialize (isWindows : Bool) (f : FontFeatures) : List (String × Bool) :=
  let m : List (String × Bool) := []
  let m := knownFeatures.foldl
    (fun acc p =>
      match getFeature f p.2 with
      | some b => acc ++ [(p.1, b)]
      | none => acc) m
  if isWindows then
    let m := (chunks4 f.other_enabled).foldl (fun acc s => acc ++ [(s, true)]) m
    (chunks4 f.other_disabled).foldl (fun acc s => acc ++ [(s, false)]) m
  else m

/-- A serialized map re-read as deserializer input: every emitted boolean
comes back as a present (`some`) value. -/
def toEntries (m : List (String × Bool)) : List (String × Option Bool) :=
  m.map (fun p => (p.1, some p.2))

/-- Specification-side projection of the known part of
`tag_value_list` / `serialize`: the specified known features, in table
order. -/
def knownProjection (f : FontFeatures) : List (String × Bool) :=
  knownFeatures.filterMap (fun p => (getFeature f p.2).map (fun b => (p.1, b)))

/-- The unknown keys that `visit_map` appends to `other_enabled`, in
iteration order: valid unknown keys whose value is `true`, one occurrence
per entry. -/
def keptEnabledKeys (entries : List (String × Option Bool)) : List String :=
  entries.filterMap (fun e =>
    match lookupKnown e.1, e.2 with
    | none, some true => if validUnknownKey e.1 then some e.1 else none
    | _, _ => none)

/-- The unknown keys that `visit_map` appends to `other_disabled`, in
iteration order. -/
def keptDisabledKeys (entries : List (String × Option Bool)) : List String :=
  entries.filterMap (fun e =>
    match lookupKnown e.1, e.2 with
    | none, some false => if validUnknownKey e.1 then some e.1 else none
    | _, _ => none)

/-- Concatenation of a list of tags into one buffer. -/
def joined (ks : List String) : String :=
  match ks with
  | [] => ""
  | k :: ks => k ++ joined ks

theorem lookupKnown_of_mem : ∀ p ∈ knownFeatures, lookupKnown p.1 = some p.2 := by decide

/-- All known bit indices are below 34. -/
theorem knownIdx_lt_34 : ∀ p ∈ knownFeatures, p.2 < 34 := by decide

/-- Distinct known feature names never share a bit index. -/
theorem knownIdx_inj : ∀ p ∈ knownFeatures, ∀ q ∈ knownFeatures, p.2 = q.2 → p.1 = q.1 := by decide

/-- Every index below 34 belongs to some known feature. -/
theorem knownFeatures_covers : ∀ j < 34, knownFeatures.any (fun p => p.2 == j) = true := by decide

/-- An ASCII character occupies one UTF-8 byte. -/
theorem utf8Size_of_ascii_char (c : Char) (h : c.toNat ≤ 127) : c.utf8Size = 1 := by
  unfold Char.utf8Size
  rw [if_pos]
  change c.val ≤ UInt32.ofNatCore 127 (by decide)
  rw [UInt32.le_def, BitVec.le_def]
  exact h

/-- The mask test the Rust code uses is exactly a bit test. -/
theorem and_shift_ne_iff (n i : Nat) : (n &&& (1 <<< i) ≠ 0) ↔ n.testBit i = true := by
  rw [Nat.one_shiftLeft, Nat.and_two_pow]
  rcases h : n.testBit i <;> simp [h, Nat.pos_iff_ne_zero, Nat.pow_pos]

/-- One loop iteration sets an enabled bit exactly for a known key with value true. -/
theorem step_enabled_testBit (st : FontFeatures) (e : String × Option Bool) (j : Nat) :
    ((deserializeStep st e).enabled.testBit j = true) ↔
      (st.enabled.testBit j = true ∨ (lookupKnown e.1 = some j ∧ e.2 = some true)) := by
  rcases e with ⟨k, v⟩
  rcases h : lookupKnown k with _ | idx
  · rcases v with _ | b
    · rcases hv : validUnknownKey k <;> simp [deserializeStep, h, hv]
    · rcases b <;> rcases hv : validUnknownKey k <;> simp [deserializeStep, h, hv]
  · rcases v with _ | b
    · simp [deserializeStep, h]
    · rcases b
      · simp [deserializeStep, h]
      · simp [deserializeStep, h, Nat.testBit_or, Nat.one_shiftLeft, Nat.testBit_two_pow]

/-- One loop iteration sets a disabled bit exactly for a known key with value false. -/
theorem step_disabled_testBit (st : FontFeatures) (e : String × Option Bool) (j : Nat) :
    ((deserializeStep st e).disabled.testBit j = true) ↔
      (st.disabled.testBit j = true ∨ (lookupKnown e.1 = some j ∧ e.2 = some false)) := by
  rcases e with ⟨k, v⟩
  rcases h : lookupKnown k with _ | idx
  · rcases v with _ | b
    · rcases hv : validUnknownKey k <;> simp [deserializeStep, h, hv]
    · rcases b <;> rcases hv : validUnknownKey k <;> simp [deserializeStep, h, hv]
  · rcases v with _ | b
    · simp [deserializeStep, h]
    · rcases b
      · simp [deserializeStep, h, Nat.testBit_or, Nat.one_shiftLeft, Nat.testBit_two_pow]
      · simp [deserializeStep, h]

/-- Bit of the enabled mask after the whole loop: some entry is a known key with value true. -/
theorem foldl_enabled_testBit (entries : List (String × Option Bool)) (st : FontFeatures) (j : Nat) :
    ((entries.foldl deserializeStep st).enabled.testBit j = true) ↔
      (st.enabled.testBit j = true ∨ ∃ e ∈ entries, lookupKnown e.1 = some j ∧ e.2 = some true) := by
  induction entries generalizing st with
  | nil => simp
  | cons e rest ih =>
    rw [List.foldl_cons, ih, step_enabled_testBit]
    simp only [List.mem_cons]
    constructor
    · rintro ((hb | he) | ⟨x, hx, hp⟩)
      · exact Or.inl hb
      · exact Or.inr ⟨e, Or.inl rfl, he⟩
      · exact Or.inr ⟨x, Or.inr hx, hp⟩
    · rintro (hb | ⟨x, (rfl | hx), hp⟩)
      · exact Or.inl (Or.inl hb)
      · exact Or.inl (Or.inr hp)
      · exact Or.inr ⟨x, hx, hp⟩

/-- Bit of the disabled mask after the whole loop: some entry is a known key with value false. -/
theorem foldl_disabled_testBit (entries : List (String × Option Bool)) (st : FontFeatures) (j : Nat) :
    ((entries.foldl deserializeStep st).disabled.testBit j = true) ↔
      (st.disabled.testBit j = true ∨ ∃ e ∈ entries, lookupKnown e.1 = some j ∧ e.2 = some false) := by
  induction entries generalizing st with
  | nil => simp
  | cons e rest ih =>
    rw [List.foldl_cons, ih, step_disabled_testBit]
    simp only [List.mem_cons]
    constructor
    · rintro ((hb | he) | ⟨x, hx, hp⟩)
      · exact Or.inl hb
      · exact Or.inr ⟨e, Or.inl rfl, he⟩
      · exact Or.inr ⟨x, Or.inr hx, hp⟩
    · rintro (hb | ⟨x, (rfl | hx), hp⟩)
      · exact Or.inl (Or.inl hb)
      · exact Or.inl (Or.inr hp)
      · exact Or.inr ⟨x, hx, hp⟩

/-- The enabled buffer after the loop: the start buffer followed by every kept unknown enabled key, in order. -/
theorem foldl_other_enabled (entries : List (String × Option Bool)) (st : FontFeatures) :
    (entries.foldl deserializeStep st).other_enabled =
      st.other_enabled ++ joined (keptEnabledKeys entries) := by
  induction entries generalizing st with
  | nil => simp [keptEnabledKeys, joined]
  | cons e rest ih =>
    rw [List.foldl_cons, ih]
    rcases e with ⟨k, v⟩
    rcases h : lookupKnown k with _ | idx
    · rcases v with _ | b
      · rcases hv : validUnknownKey k <;> simp [deserializeStep, keptEnabledKeys, h, hv, joined]
      · rcases b <;> rcases hv : validUnknownKey k <;>
          simp [deserializeStep, keptEnabledKeys, h, hv, joined, String.append_assoc]
    · rcases v with _ | b
      · simp [deserializeStep, keptEnabledKeys, h, joined]
      · rcases b <;> simp [deserializeStep, keptEnabledKeys, h, joined]

/-- The disabled buffer after the loop: the start buffer followed by every kept unknown disabled key, in order. -/
theorem foldl_other_disabled (entries : List (String × Option Bool)) (st : FontFeatures) :
    (entries.foldl deserializeStep st).other_disabled =
      st.other_disabled ++ joined (keptDisabledKeys entries) := by
  induction entries generalizing st with
  | nil => simp [keptDisabledKeys, joined]
  | cons e rest ih =>
    rw [List.foldl_cons, ih]
    rcases e with ⟨k, v⟩
    rcases h : lookupKnown k with _ | idx
    · rcases v with _ | b
      · rcases hv : validUnknownKey k <;> simp [deserializeStep, keptDisabledKeys, h, hv, joined]
      · rcases b <;> rcases hv : validUnknownKey k <;>
          simp [deserializeStep, keptDisabledKeys, h, hv, joined, String.append_assoc]
    · rcases v with _ | b
      · simp [deserializeStep, keptDisabledKeys, h, joined]
      · rcases b <;> simp [deserializeStep, keptDisabledKeys, h, joined]

theorem mem_of_lookupKnown {k : String} {j : Nat} (h : lookupKnown k = some j) :
    (k, j) ∈ knownFeatures := by
  unfold lookupKnown at h
  rcases hf : knownFeatures.find? (fun p => p.1 == k) with _ | p
  · rw [hf] at h; simp at h
  · rw [hf] at h
    simp at h
    have hm := List.mem_of_find?_eq_some hf
    have hp : p.1 = k := by simpa using List.find?_some hf
    rcases p with ⟨n, i⟩
    simp at hp h
    subst hp
    subst h
    exact hm

theorem lookupKnown_lt {k : String} {j : Nat} (h : lookupKnown k = some j) : j < 34 :=
  knownIdx_lt_34 _ (mem_of_lookupKnown h)

theorem lookupKnown_inj {k1 k2 : String} {j : Nat}
    (h1 : lookupKnown k1 = some j) (h2 : lookupKnown k2 = some j) : k1 = k2 :=
  knownIdx_inj _ (mem_of_lookupKnown h1) _ (mem_of_lookupKnown h2) rfl

theorem step_enabled_lt (st : FontFeatures) (e : String × Option Bool)
    (h : st.enabled < 2 ^ 34) : (deserializeStep st e).enabled < 2 ^ 34 := by
  rcases e with ⟨k, v⟩
  rcases hk : lookupKnown k with _ | idx
  · rcases v with _ | b
    · rcases hv : validUnknownKey k <;> simpa [deserializeStep, hk, hv] using h
    · rcases b <;> rcases hv : validUnknownKey k <;> simpa [deserializeStep, hk, hv] using h
  · rcases v with _ | b
    · simpa [deserializeStep, hk] using h
    · rcases b
      · simpa [deserializeStep, hk] using h
      · simp only [deserializeStep, hk]
        exact Nat.or_lt_two_pow h
          (by rw [Nat.one_shiftLeft]; exact Nat.pow_lt_pow_right (by omega) (lookupKnown_lt hk))

theorem step_disabled_lt (st : FontFeatures) (e : String × Option Bool)
    (h : st.disabled < 2 ^ 34) : (deserializeStep st e).disabled < 2 ^ 34 := by
  rcases e with ⟨k, v⟩
  rcases hk : lookupKnown k with _ | idx
  · rcases v with _ | b
    · rcases hv : validUnknownKey k <;> simpa [deserializeStep, hk, hv] using h
    · rcases b <;> rcases hv : validUnknownKey k <;> simpa [deserializeStep, hk, hv] using h
  · rcases v with _ | b
    · simpa [deserializeStep, hk] using h
    · rcases b
      · simp only [deserializeStep, hk]
        exact Nat.or_lt_two_pow h
          (by rw [Nat.one_shiftLeft]; exact Nat.pow_lt_pow_right (by omega) (lookupKnown_lt hk))
      · simpa [deserializeStep, hk] using h

theorem foldl_enabled_lt (entries : List (String × Option Bool)) (st : FontFeatures)
    (h : st.enabled < 2 ^ 34) : (entries.foldl deserializeStep st).enabled < 2 ^ 34 := by
  induction entries generalizing st with
  | nil => exact h
  | cons e rest ih => exact ih _ (step_enabled_lt st e h)

theorem foldl_disabled_lt (entries : List (String × Option Bool)) (st : FontFeatures)
    (h : st.disabled < 2 ^ 34) : (entries.foldl deserializeStep st).disabled < 2 ^ 34 := by
  induction entries generalizing st with
  | nil => exact h
  | cons e rest ih => exact ih _ (step_disabled_lt st e h)

theorem deserialize_enabled_lt (entries : List (String × Option Bool)) :
    (deserialize entries).enabled < 2 ^ 34 :=
  foldl_enabled_lt entries emptyFeatures (by decide)

theorem deserialize_disabled_lt (entries : List (String × Option Bool)) :
    (deserialize entries).disabled < 2 ^ 34 :=
  foldl_disabled_lt entries emptyFeatures (by decide)

theorem deserialize_enabled_testBit (entries : List (String × Option Bool)) (j : Nat) :
    ((deserialize entries).enabled.testBit j = true) ↔
      (∃ e ∈ entries, lookupKnown e.1 = some j ∧ e.2 = some true) := by
  rw [deserialize, foldl_enabled_testBit]
  simp [emptyFeatures]

theorem deserialize_disabled_testBit (entries : List (String × Option Bool)) (j : Nat) :
    ((deserialize entries).disabled.testBit j = true) ↔
      (∃ e ∈ entries, lookupKnown e.1 = some j ∧ e.2 = some false) := by
  rw [deserialize, foldl_disabled_testBit]
  simp [emptyFeatures]

/-- With pairwise-distinct keys, no bit is set in both masks. -/
theorem exclusivity (entries : List (String × Option Bool))
    (hnd : (entries.map Prod.fst).Nodup) :
    (deserialize entries).enabled &&& (deserialize entries).disabled = 0 := by
  apply Nat.eq_of_testBit_eq
  intro j
  rw [Nat.testBit_and, Nat.zero_testBit]
  cases ha : (deserialize entries).enabled.testBit j with
  | false => simp
  | true =>
    simp only [Bool.true_and]
    by_contra hd
    rw [Bool.not_eq_false] at hd
    obtain ⟨e1, he1, hk1, hv1⟩ := (deserialize_enabled_testBit entries j).1 ha
    obtain ⟨e2, he2, hk2, hv2⟩ := (deserialize_disabled_testBit entries j).1 hd
    have hkeq : e1.1 = e2.1 := lookupKnown_inj hk1 hk2
    have := List.inj_on_of_nodup_map hnd he1 he2 hkeq
    rw [this, hv2] at hv1
    exact Option.noConfusion hv1 (fun h => Bool.noConfusion h)

theorem foldl_push_known (f : FontFeatures) (T : List (String × Nat))
    (init : List (String × Bool)) :
    T.foldl (fun acc p =>
        match getFeature f p.2 with
        | some b => acc ++ [(p.1, b)]
        | none => acc) init
      = init ++ T.filterMap (fun p => (getFeature f p.2).map (fun b => (p.1, b))) := by
  induction T generalizing init with
  | nil => simp
  | cons p T ih =>
    rw [List.foldl_cons, ih]
    rcases hb : getFeature f p.2 with _ | b <;> simp [hb]

theorem foldl_push_const (b : Bool) (cs : List String) (init : List (String × Bool)) :
    cs.foldl (fun acc s => acc ++ [(s, b)]) init = init ++ cs.map (fun s => (s, b)) := by
  induction cs generalizing init with
  | nil => simp
  | cons c cs ih =>
    rw [List.foldl_cons, ih]
    simp

/-- The projection is the specified known features in table order, then the enabled chunks, then the disabled chunks. -/
theorem tag_value_list_eq (f : FontFeatures) :
    tag_value_list f =
      knownProjection f
        ++ (chunks4 f.other_enabled).map (fun s => (s, true))
        ++ (chunks4 f.other_disabled).map (fun s => (s, false)) := by
  unfold tag_value_list knownProjection
  dsimp only
  rw [foldl_push_known, foldl_push_const, foldl_push_const]
  simp

/-- Serialization with the platform flag set emits known features then both chunk groups. -/
theorem serialize_true_eq (f : FontFeatures) :
    serialize true f =
      knownProjection f
        ++ (chunks4 f.other_enabled).map (fun s => (s, true))
        ++ (chunks4 f.other_disabled).map (fun s => (s, false)) := by
  unfold serialize knownProjection
  dsimp only
  rw [foldl_push_known, foldl_push_const, foldl_push_const]
  simp

/-- Serialization with the platform flag unset emits only the known features. -/
theorem serialize_false_eq (f : FontFeatures) :
    serialize false f = knownProjection f := by
  unfold serialize knownProjection
  dsimp only
  rw [foldl_push_known]
  simp

theorem go_eq_length (l : List Char) (h : ∀ c ∈ l, c.toNat ≤ 127) :
    String.utf8ByteSize.go l = l.length := by
  induction l with
  | nil => rfl
  | cons c cs ih =>
    show String.utf8ByteSize.go cs + c.utf8Size = cs.length + 1
    rw [ih (fun x hx => h x (List.mem_cons_of_mem c hx)), utf8Size_of_ascii_char c (h c (List.mem_cons_self c cs))]

theorem utf8ByteSize_of_ascii (s : String) (h : isAsciiStr s = true) :
    s.utf8ByteSize = s.data.length := by
  rcases s with ⟨l⟩
  simp only [isAsciiStr, List.all_eq_true, decide_eq_true_eq] at h
  exact go_eq_length l h

theorem validUnknown_props {k : String} (h : validUnknownKey k = true) :
    k.data.length = 4 ∧ isAsciiStr k = true := by
  unfold validUnknownKey at h
  rw [Bool.and_eq_true] at h
  obtain ⟨h1, h2⟩ := h
  rw [Nat.beq_eq_true_eq] at h1
  rw [utf8ByteSize_of_ascii k h2] at h1
  exact ⟨h1, h2⟩

/-- Re-joining the chunks restores the original character list. -/
theorem chunkList_join : ∀ l : List Char, (chunkList l).flatten = l
  | [] => rfl
  | [_] => rfl
  | [_, _] => rfl
  | [_, _, _] => rfl
  | a :: b :: c :: d :: rest => by simp [chunkList, chunkList_join rest]

/-- Chunking a concatenation of exact 4-character pieces recovers the pieces. -/
theorem chunkList_of_chunks : ∀ ks : List (List Char), (∀ k ∈ ks, k.length = 4) →
    chunkList ks.flatten = ks
  | [], _ => rfl
  | k :: ks, h => by
    have hk : k.length = 4 := h k (List.mem_cons_self k ks)
    rcases k with _ | ⟨a, k⟩; · simp at hk
    rcases k with _ | ⟨b, k⟩; · simp at hk
    rcases k with _ | ⟨c, k⟩; · simp at hk
    rcases k with _ | ⟨d, k⟩; · simp at hk
    have hnil : k = [] := by simpa using hk
    subst hnil
    show chunkList ([a, b, c, d] ++ ks.flatten) = [a, b, c, d] :: ks
    simp only [List.cons_append, List.nil_append, chunkList]
    exact congrArg _ (chunkList_of_chunks ks (fun x hx => h x (List.mem_cons_of_mem _ hx)))

theorem joined_data : ∀ ks : List String, (joined ks).data = (ks.map String.data).flatten
  | [] => rfl
  | k :: ks => by simp [joined, joined_data ks]

theorem chunks4_joined (ks : List String) (h : ∀ k ∈ ks, k.data.length = 4) :
    chunks4 (joined ks) = ks := by
  unfold chunks4
  rw [joined_data, chunkList_of_chunks (ks.map String.data) (by simpa using h), List.map_map]
  have hid : ((fun cs => String.mk cs) ∘ String.data) = id := funext (fun s => rfl)
  rw [hid, List.map_id]

/-- Joining the 4-character chunks of a buffer restores the buffer. -/
theorem joined_chunks4 (s : String) : joined (chunks4 s) = s := by
  apply String.ext
  rw [joined_data]
  unfold chunks4
  rw [List.map_map]
  have hid : (String.data ∘ fun cs => String.mk cs) = id := funext (fun l => rfl)
  rw [hid, List.map_id, chunkList_join]

theorem joined_length_dvd : ∀ ks : List String, (∀ k ∈ ks, k.data.length = 4) →
    4 ∣ (joined ks).data.length
  | [], _ => ⟨0, rfl⟩
  | k :: ks, h => by
    show 4 ∣ (k ++ joined ks).data.length
    rw [String.data_append, List.length_append, h k (List.mem_cons_self k ks)]
    exact Nat.dvd_add ⟨1, rfl⟩ (joined_length_dvd ks (fun x hx => h x (List.mem_cons_of_mem _ hx)))

theorem joined_ascii : ∀ ks : List String, (∀ k ∈ ks, isAsciiStr k = true) →
    isAsciiStr (joined ks) = true
  | [], _ => rfl
  | k :: ks, h => by
    show isAsciiStr (k ++ joined ks) = true
    simp only [isAsciiStr, String.data_append, List.all_append, Bool.and_eq_true]
    constructor
    · exact h k (List.mem_cons_self k ks)
    · exact joined_ascii ks (fun x hx => h x (List.mem_cons_of_mem _ hx))

theorem mem_keptEnabledKeys {entries : List (String × Option Bool)} {k : String}
    (h : k ∈ keptEnabledKeys entries) :
    lookupKnown k = none ∧ validUnknownKey k = true := by
  unfold keptEnabledKeys at h
  rw [List.mem_filterMap] at h
  obtain ⟨e, _, hg⟩ := h
  rcases hk : lookupKnown e.1 with _ | idx
  · rcases hv : e.2 with _ | b
    · rw [hk, hv] at hg; simp at hg
    · rcases b
      · rw [hk, hv] at hg; simp at hg
      · rw [hk, hv] at hg
        rcases hval : validUnknownKey e.1
        · rw [hval] at hg; simp at hg
        · rw [hval] at hg
          simp at hg
          subst hg
          exact ⟨hk, hval⟩
  · rw [hk] at hg; simp at hg

theorem mem_keptDisabledKeys {entries : List (String × Option Bool)} {k : String}
    (h : k ∈ keptDisabledKeys entries) :
    lookupKnown k = none ∧ validUnknownKey k = true := by
  unfold keptDisabledKeys at h
  rw [List.mem_filterMap] at h
  obtain ⟨e, _, hg⟩ := h
  rcases hk : lookupKnown e.1 with _ | idx
  · rcases hv : e.2 with _ | b
    · rw [hk, hv] at hg; simp at hg
    · rcases b
      · rw [hk, hv] at hg
        rcases hval : validUnknownKey e.1
        · rw [hval] at hg; simp at hg
        · rw [hval] at hg
          simp at hg
          subst hg
          exact ⟨hk, hval⟩
      · rw [hk, hv] at hg; simp at hg
  · rw [hk] at hg; simp at hg

theorem deserialize_other_enabled (entries : List (String × Option Bool)) :
    (deserialize entries).other_enabled = joined (keptEnabledKeys entries) := by
  rw [deserialize, foldl_other_enabled]
  exact String.empty_append _

theorem deserialize_other_disabled (entries : List (String × Option Bool)) :
    (deserialize entries).other_disabled = joined (keptDisabledKeys entries) := by
  rw [deserialize, foldl_other_disabled]
  exact String.empty_append _

theorem chunks4_deserialize_enabled (entries : List (String × Option Bool)) :
    chunks4 (deserialize entries).other_enabled = keptEnabledKeys entries := by
  rw [deserialize_other_enabled]
  exact chunks4_joined _ (fun k hk => (validUnknown_props (mem_keptEnabledKeys hk).2).1)

theorem chunks4_deserialize_disabled (entries : List (String × Option Bool)) :
    chunks4 (deserialize entries).other_disabled = keptDisabledKeys entries := by
  rw [deserialize_other_disabled]
  exact chunks4_joined _ (fun k hk => (validUnknown_props (mem_keptDisabledKeys hk).2).1)


theorem getFeature_eq_some_true (f : FontFeatures) (j : Nat) :
    getFeature f j = some true ↔ f.enabled.testBit j = true := by
  rw [← and_shift_ne_iff]
  unfold getFeature
  by_cases h1 : f.enabled &&& (1 <<< j) ≠ 0
  · simp [h1]
  · simp only [h1, if_false]
    by_cases h2 : f.disabled &&& (1 <<< j) ≠ 0 <;> simp [h1, h2]

theorem getFeature_eq_some_false (f : FontFeatures) (j : Nat) :
    getFeature f j = some false ↔
      (f.disabled.testBit j = true ∧ f.enabled.testBit j = false) := by
  unfold getFeature
  by_cases h1 : f.enabled &&& (1 <<< j) ≠ 0
  · rw [(and_shift_ne_iff _ _).1 h1]
    simp [h1]
  · by_cases h2 : f.disabled &&& (1 <<< j) ≠ 0
    · rw [(and_shift_ne_iff _ _).1 h2]
      have he : f.enabled.testBit j = false := by
        rcases hb : f.enabled.testBit j
        · rfl
        · exact absurd ((and_shift_ne_iff _ _).2 hb) h1
      simp [h1, h2, he]
    · have hd : f.disabled.testBit j = false := by
        rcases hb : f.disabled.testBit j
        · rfl
        · exact absurd ((and_shift_ne_iff _ _).2 hb) h2
      simp [h1, h2, hd]

theorem fontFeatures_ext {f g : FontFeatures}
    (h1 : f.enabled = g.enabled) (h2 : f.disabled = g.disabled)
    (h3 : f.other_enabled = g.other_enabled) (h4 : f.other_disabled = g.other_disabled) :
    f = g := by
  cases f
  cases g
  simp_all

theorem filterMap_eq_self_of {α : Type} (q : α → Option α) :
    ∀ l : List α, (∀ a ∈ l, q a = some a) → l.filterMap q = l
  | [], _ => rfl
  | a :: l, h => by
    rw [List.filterMap_cons, h a (List.mem_cons_self a l),
      filterMap_eq_self_of q l (fun x hx => h x (List.mem_cons_of_mem _ hx))]

theorem mem_toEntries_knownProjection {f : FontFeatures} {e : String × Option Bool}
    (h : e ∈ toEntries (knownProjection f)) :
    ∃ p ∈ knownFeatures, ∃ b, getFeature f p.2 = some b ∧ e = (p.1, some b) := by
  unfold toEntries knownProjection at h
  rw [List.mem_map] at h
  obtain ⟨x, hx, rfl⟩ := h
  rw [List.mem_filterMap] at hx
  obtain ⟨p, hp, hg⟩ := hx
  rcases hb : getFeature f p.2 with _ | b
  · rw [hb] at hg; simp at hg
  · rw [hb] at hg
    simp at hg
    exact ⟨p, hp, b, hb, by rw [← hg]⟩

theorem toEntries_serialize_true (f : FontFeatures) :
    toEntries (serialize true f) =
      toEntries (knownProjection f)
        ++ (chunks4 f.other_enabled).map (fun c => (c, some true))
        ++ (chunks4 f.other_disabled).map (fun c => (c, some false)) := by
  rw [serialize_true_eq]
  unfold toEntries
  simp only [List.map_append, List.map_map]
  rfl

theorem keptEnabled_serialized (f : FontFeatures)
    (hpe : ∀ c ∈ chunks4 f.other_enabled, lookupKnown c = none ∧ validUnknownKey c = true) :
    keptEnabledKeys (toEntries (knownProjection f)
        ++ (chunks4 f.other_enabled).map (fun c => (c, some true))
        ++ (chunks4 f.other_disabled).map (fun c => (c, some false)))
      = chunks4 f.other_enabled := by
  unfold keptEnabledKeys
  rw [List.filterMap_append, List.filterMap_append]
  have h1 : (toEntries (knownProjection f)).filterMap (fun e =>
      match lookupKnown e.1, e.2 with
      | none, some true => if validUnknownKey e.1 then some e.1 else none
      | _, _ => none) = [] := by
    rw [List.filterMap_eq_nil_iff]
    intro e he
    obtain ⟨p, hp, b, _, rfl⟩ := mem_toEntries_knownProjection he
    simp [lookupKnown_of_mem p hp]
  have h2 : ((chunks4 f.other_enabled).map (fun c => (c, some true))).filterMap (fun e =>
      match lookupKnown e.1, e.2 with
      | none, some true => if validUnknownKey e.1 then some e.1 else none
      | _, _ => none) = chunks4 f.other_enabled := by
    rw [List.filterMap_map]
    apply filterMap_eq_self_of
    intro c hc
    simp [(hpe c hc).1, (hpe c hc).2]
  have h3 : ((chunks4 f.other_disabled).map (fun c => (c, some false))).filterMap (fun e =>
      match lookupKnown e.1, e.2 with
      | none, some true => if validUnknownKey e.1 then some e.1 else none
      | _, _ => none) = [] := by
    rw [List.filterMap_map, List.filterMap_eq_nil_iff]
    intro c hc
    rcases h : lookupKnown c <;> simp [h]
  rw [h1, h2, h3, List.nil_append, List.append_nil]

theorem keptDisabled_serialized (f : FontFeatures)
    (hpd : ∀ c ∈ chunks4 f.other_disabled, lookupKnown c = none ∧ validUnknownKey c = true) :
    keptDisabledKeys (toEntries (knownProjection f)
        ++ (chunks4 f.other_enabled).map (fun c => (c, some true))
        ++ (chunks4 f.other_disabled).map (fun c => (c, some false)))
      = chunks4 f.other_disabled := by
  unfold keptDisabledKeys
  rw [List.filterMap_append, List.filterMap_append]
  have h1 : (toEntries (knownProjection f)).filterMap (fun e =>
      match lookupKnown e.1, e.2 with
      | none, some false => if validUnknownKey e.1 then some e.1 else none
      | _, _ => none) = [] := by
    rw [List.filterMap_eq_nil_iff]
    intro e he
    obtain ⟨p, hp, b, _, rfl⟩ := mem_toEntries_knownProjection he
    simp [lookupKnown_of_mem p hp]
  have h2 : ((chunks4 f.other_enabled).map (fun c => (c, some true))).filterMap (fun e =>
      match lookupKnown e.1, e.2 with
      | none, some false => if validUnknownKey e.1 then some e.1 else none
      | _, _ => none) = [] := by
    rw [List.filterMap_map, List.filterMap_eq_nil_iff]
    intro c hc
    rcases h : lookupKnown c <;> simp [h]
  have h3 : ((chunks4 f.other_disabled).map (fun c => (c, some false))).filterMap (fun e =>
      match lookupKnown e.1, e.2 with
      | none, some false => if validUnknownKey e.1 then some e.1 else none
      | _, _ => none) = chunks4 f.other_disabled := by
    rw [List.filterMap_map]
    apply filterMap_eq_self_of
    intro c hc
    simp [(hpd c hc).1, (hpd c hc).2]
  rw [h1, h2, h3]
  simp

theorem enabled_of_serialized (f : FontFeatures)
    (hlt : f.enabled < 2 ^ 34)
    (hpe : ∀ c ∈ chunks4 f.other_enabled, lookupKnown c = none)
    (hpd : ∀ c ∈ chunks4 f.other_disabled, lookupKnown c = none) :
    (deserialize (toEntries (serialize true f))).enabled = f.enabled := by
  apply Nat.eq_of_testBit_eq
  intro j
  cases hb : f.enabled.testBit j with
  | true =>
    apply (deserialize_enabled_testBit _ j).2
    have hj : j < 34 := by
      by_contra h34
      have : f.enabled.testBit j = false :=
        Nat.testBit_lt_two_pow (Nat.lt_of_lt_of_le hlt (Nat.pow_le_pow_right (by omega) (by omega)))
      rw [this] at hb
      exact Bool.noConfusion hb
    obtain ⟨p, hp, hpj⟩ := List.any_eq_true.1 (knownFeatures_covers j hj)
    have hpj : p.2 = j := by simpa using hpj
    refine ⟨(p.1, some true), ?_, ?_, rfl⟩
    · rw [toEntries_serialize_true]
      apply List.mem_append_left
      apply List.mem_append_left
      apply List.mem_map.2
      refine ⟨(p.1, true), ?_, rfl⟩
      apply List.mem_filterMap.2
      refine ⟨p, hp, ?_⟩
      rw [hpj, (getFeature_eq_some_true f j).2 hb]
      rfl
    · rw [lookupKnown_of_mem p hp, hpj]
  | false =>
    by_contra hto
    rw [Bool.not_eq_false] at hto
    obtain ⟨e, he, hk, hv2⟩ := (deserialize_enabled_testBit _ j).1 hto
    rw [toEntries_serialize_true] at he
    rcases List.mem_append.1 he with he12 | he3
    · rcases List.mem_append.1 he12 with he1 | he2
      · obtain ⟨p, hp, b, hg, rfl⟩ := mem_toEntries_knownProjection he1
        have hpj : p.2 = j := by
          rw [lookupKnown_of_mem p hp] at hk
          exact Option.some.inj hk
        have hbtrue : b = true := by simpa using hv2
        subst hbtrue
        rw [hpj, getFeature_eq_some_true, hb] at hg
        exact Bool.noConfusion hg
      · obtain ⟨c, hc, rfl⟩ := List.mem_map.1 he2
        rw [hpe c hc] at hk
        exact Option.noConfusion hk
    · obtain ⟨c, hc, rfl⟩ := List.mem_map.1 he3
      rw [hpd c hc] at hk
      exact Option.noConfusion hk

theorem disabled_of_serialized (f : FontFeatures)
    (hltd : f.disabled < 2 ^ 34)
    (hex : f.enabled &&& f.disabled = 0)
    (hpe : ∀ c ∈ chunks4 f.other_enabled, lookupKnown c = none)
    (hpd : ∀ c ∈ chunks4 f.other_disabled, lookupKnown c = none) :
    (deserialize (toEntries (serialize true f))).disabled = f.disabled := by
  apply Nat.eq_of_testBit_eq
  intro j
  cases hb : f.disabled.testBit j with
  | true =>
    apply (deserialize_disabled_testBit _ j).2
    have hj : j < 34 := by
      by_contra h34
      have : f.disabled.testBit j = false :=
        Nat.testBit_lt_two_pow (Nat.lt_of_lt_of_le hltd (Nat.pow_le_pow_right (by omega) (by omega)))
      rw [this] at hb
      exact Bool.noConfusion hb
    have hen : f.enabled.testBit j = false := by
      have := congrArg (fun n => n.testBit j) hex
      simp only [Nat.testBit_and, Nat.zero_testBit] at this
      rcases hbe : f.enabled.testBit j
      · rfl
      · rw [hbe, hb] at this
        exact Bool.noConfusion this
    obtain ⟨p, hp, hpj⟩ := List.any_eq_true.1 (knownFeatures_covers j hj)
    have hpj : p.2 = j := by simpa using hpj
    refine ⟨(p.1, some false), ?_, ?_, rfl⟩
    · rw [toEntries_serialize_true]
      apply List.mem_append_left
      apply List.mem_append_left
      apply List.mem_map.2
      refine ⟨(p.1, false), ?_, rfl⟩
      apply List.mem_filterMap.2
      refine ⟨p, hp, ?_⟩
      rw [hpj, (getFeature_eq_some_false f j).2 ⟨hb, hen⟩]
      rfl
    · rw [lookupKnown_of_mem p hp, hpj]
  | false =>
    by_contra hto
    rw [Bool.not_eq_false] at hto
    obtain ⟨e, he, hk, hv2⟩ := (deserialize_disabled_testBit _ j).1 hto
    rw [toEntries_serialize_true] at he
    rcases List.mem_append.1 he with he12 | he3
    · rcases List.mem_append.1 he12 with he1 | he2
      · obtain ⟨p, hp, b, hg, rfl⟩ := mem_toEntries_knownProjection he1
        have hpj : p.2 = j := by
          rw [lookupKnown_of_mem p hp] at hk
          exact Option.some.inj hk
        have hbfalse : b = false := by simpa using hv2
        subst hbfalse
        rw [hpj, getFeature_eq_some_false, hb] at hg
        simp at hg
      · obtain ⟨c, hc, rfl⟩ := List.mem_map.1 he2
        rw [hpe c hc] at hk
        exact Option.noConfusion hk
    · obtain ⟨c, hc, rfl⟩ := List.mem_map.1 he3
      rw [hpd c hc] at hk
      exact Option.noConfusion hk

theorem other_enabled_of_serialized (f : FontFeatures)
    (hpe : ∀ c ∈ chunks4 f.other_enabled, lookupKnown c = none ∧ validUnknownKey c = true) :
    (deserialize (toEntries (serialize true f))).other_enabled = f.other_enabled := by
  rw [deserialize_other_enabled, toEntries_serialize_true, keptEnabled_serialized f hpe,
    joined_chunks4]

theorem other_disabled_of_serialized (f : FontFeatures)
    (hpd : ∀ c ∈ chunks4 f.other_disabled, lookupKnown c = none ∧ validUnknownKey c = true) :
    (deserialize (toEntries (serialize true f))).other_disabled = f.other_disabled := by
  rw [deserialize_other_disabled, toEntries_serialize_true, keptDisabled_serialized f hpd,
    joined_chunks4]

/-- Serializing with unknown-tag emission and re-deserializing restores the value, for any value built from a duplicate-free map. -/
theorem roundtrip (entries : List (String × Option Bool))
    (hnd : (entries.map Prod.fst).Nodup) :
    deserialize (toEntries (serialize true (deserialize entries))) = deserialize entries := by
  have hpe : ∀ c ∈ chunks4 (deserialize entries).other_enabled,
      lookupKnown c = none ∧ validUnknownKey c = true := by
    rw [chunks4_deserialize_enabled]
    exact fun c hc => mem_keptEnabledKeys hc
  have hpd : ∀ c ∈ chunks4 (deserialize entries).other_disabled,
      lookupKnown c = none ∧ validUnknownKey c = true := by
    rw [chunks4_deserialize_disabled]
    exact fun c hc => mem_keptDisabledKeys hc
  exact fontFeatures_ext
    (enabled_of_serialized _ (deserialize_enabled_lt entries)
      (fun c hc => (hpe c hc).1) (fun c hc => (hpd c hc).1))
    (disabled_of_serialized _ (deserialize_disabled_lt entries) (exclusivity entries hnd)
      (fun c hc => (hpe c hc).1) (fun c hc => (hpd c hc).1))
    (other_enabled_of_serialized _ hpe)
    (other_disabled_of_serialized _ hpd)

/-- A null value is a no-op for any key. -/
theorem step_null (st : FontFeatures) (k : String) :
    deserializeStep st (k, none) = st := by
  rcases h : lookupKnown k with _ | idx
  · rcases hv : validUnknownKey k <;> simp [deserializeStep, h, hv]
  · simp [deserializeStep, h]

/-- A malformed unknown key leaves the state unchanged for any value. -/
theorem step_malformed (st : FontFeatures) (k : String) (v : Option Bool)
    (hk : lookupKnown k = none) (hv : validUnknownKey k = false) :
    deserializeStep st (k, v) = st := by
  rcases v with _ | b
  · simp [deserializeStep, hk, hv]
  · rcases b <;> simp [deserializeStep, hk, hv]

theorem bool_eq_of_iff {a b : Bool} (h : a = true ↔ b = true) : a = b := by
  cases a <;> cases b <;> simp_all

theorem perm_enabled (l1 l2 : List (String × Option Bool)) (hp : l1.Perm l2) :
    (deserialize l1).enabled = (deserialize l2).enabled := by
  apply Nat.eq_of_testBit_eq
  intro j
  apply bool_eq_of_iff
  rw [deserialize_enabled_testBit, deserialize_enabled_testBit]
  constructor
  · rintro ⟨e, he, hq⟩
    exact ⟨e, hp.mem_iff.1 he, hq⟩
  · rintro ⟨e, he, hq⟩
    exact ⟨e, hp.mem_iff.2 he, hq⟩

theorem perm_disabled (l1 l2 : List (String × Option Bool)) (hp : l1.Perm l2) :
    (deserialize l1).disabled = (deserialize l2).disabled := by
  apply Nat.eq_of_testBit_eq
  intro j
  apply bool_eq_of_iff
  rw [deserialize_disabled_testBit, deserialize_disabled_testBit]
  constructor
  · rintro ⟨e, he, hq⟩
    exact ⟨e, hp.mem_iff.1 he, hq⟩
  · rintro ⟨e, he, hq⟩
    exact ⟨e, hp.mem_iff.2 he, hq⟩

theorem keptEnabled_of_all_known (l : List (String × Option Bool))
    (h : ∀ e ∈ l, (lookupKnown e.1).isSome = true) : keptEnabledKeys l = [] := by
  unfold keptEnabledKeys
  rw [List.filterMap_eq_nil_iff]
  intro e he
  rcases hk : lookupKnown e.1 with _ | idx
  · have := h e he
    rw [hk] at this
    simp at this
  · simp [hk]

theorem keptDisabled_of_all_known (l : List (String × Option Bool))
    (h : ∀ e ∈ l, (lookupKnown e.1).isSome = true) : keptDisabledKeys l = [] := by
  unfold keptDisabledKeys
  rw [List.filterMap_eq_nil_iff]
  intro e he
  rcases hk : lookupKnown e.1 with _ | idx
  · have := h e he
    rw [hk] at this
    simp at this
  · simp [hk]

theorem perm_deserialize_of_known (l1 l2 : List (String × Option Bool)) (hp : l1.Perm l2)
    (hknown : ∀ e ∈ l1, (lookupKnown e.1).isSome = true) :
    deserialize l1 = deserialize l2 := by
  have hknown2 : ∀ e ∈ l2, (lookupKnown e.1).isSome = true :=
    fun e he => hknown e (hp.mem_iff.2 he)
  apply fontFeatures_ext (perm_enabled l1 l2 hp) (perm_disabled l1 l2 hp)
  · rw [deserialize_other_enabled, deserialize_other_enabled,
      keptEnabled_of_all_known l1 hknown, keptEnabled_of_all_known l2 hknown2]
  · rw [deserialize_other_disabled, deserialize_other_disabled,
      keptDisabled_of_all_known l1 hknown, keptDisabled_of_all_known l2 hknown2]

theorem deserialize_enabled_dvd (entries : List (String × Option Bool)) :
    4 ∣ (deserialize entries).other_enabled.data.length := by
  rw [deserialize_other_enabled]
  exact joined_length_dvd _ (fun k hk => (validUnknown_props (mem_keptEnabledKeys hk).2).1)

theorem deserialize_disabled_dvd (entries : List (String × Option Bool)) :
    4 ∣ (deserialize entries).other_disabled.data.length := by
  rw [deserialize_other_disabled]
  exact joined_length_dvd _ (fun k hk => (validUnknown_props (mem_keptDisabledKeys hk).2).1)

theorem deserialize_enabled_chunk_props (entries : List (String × Option Bool)) :
    ∀ c ∈ chunks4 (deserialize entries).other_enabled,
      c.data.length = 4 ∧ isAsciiStr c = true := by
  rw [chunks4_deserialize_enabled]
  exact fun c hc => validUnknown_props (mem_keptEnabledKeys hc).2

theorem deserialize_disabled_chunk_props (entries : List (String × Option Bool)) :
    ∀ c ∈ chunks4 (deserialize entries).other_disabled,
      c.data.length = 4 ∧ isAsciiStr c = true := by
  rw [chunks4_deserialize_disabled]
  exact fun c hc => validUnknown_props (mem_keptDisabledKeys hc).2

/-- C1 counterexample: the entry stream of the duplicate-keyed map with liga true
then liga false sets bit 4 in both masks, so the claimed exclusivity invariant
fails on a constructed value: enabled AND disabled = 16, not 0. -/
theorem claim1_counterexample :
    (deserialize [("liga", some true), ("liga", some false)]).enabled &&&
      (deserialize [("liga", some true), ("liga", some false)]).disabled = 16 ∧
    ¬((deserialize [("liga", some true), ("liga", some false)]).enabled &&&
      (deserialize [("liga", some true), ("liga", some false)]).disabled = 0) :=
  ⟨by decide, by decide⟩

/-- C1 amended: for every value built by deserializing an entry stream whose keys
are pairwise distinct (a duplicate-free map, values true/false/null), the two masks
satisfy enabled AND disabled = 0; no bit index is set in both, so each
known-feature accessor outcome is unique.  A known key duplicated with conflicting
values sets both bits, so the distinctness proviso is necessary. -/
theorem claim1_tri_state_exclusive (entries : List (String × Option Bool))
    (hnd : (entries.map Prod.fst).Nodup) :
    (deserialize entries).enabled &&& (deserialize entries).disabled = 0 ∧
    ∀ i, ¬((deserialize entries).enabled.testBit i = true ∧
           (deserialize entries).disabled.testBit i = true) := by
  refine ⟨exclusivity entries hnd, ?_⟩
  rintro i ⟨h1, h2⟩
  have hz := congrArg (fun n => n.testBit i) (exclusivity entries hnd)
  simp only [Nat.testBit_and, Nat.zero_testBit] at hz
  rw [h1, h2] at hz
  exact Bool.noConfusion hz

theorem claim1_witness :
    (([("liga", some true), ("calt", some false)] :
        List (String × Option Bool)).map Prod.fst).Nodup ∧
    (deserialize [("liga", some true), ("calt", some false)]).enabled &&&
      (deserialize [("liga", some true), ("calt", some false)]).disabled = 0 :=
  ⟨by decide, (claim1_tri_state_exclusive _ (by decide)).1⟩

/-- C2 counterexample: every key of the duplicate-keyed map with liga true then
liga false is well-formed (known), yet the round trip is not the identity:
serialization emits only liga true (the accessor gives the enabled bit priority),
so re-deserialization loses the disabled bit. -/
theorem claim2_counterexample :
    ([("liga", some true), ("liga", some false)] : List (String × Option Bool)).all
        (fun e => (lookupKnown e.1).isSome || validUnknownKey e.1) = true ∧
    deserialize (toEntries (serialize true
        (deserialize [("liga", some true), ("liga", some false)])))
      ≠ deserialize [("liga", some true), ("liga", some false)] :=
  ⟨by decide, by decide⟩

/-- C2 amended: for a value built by deserializing a map with well-formed and
pairwise-distinct keys, serializing on the platform that emits unknown tags and
re-deserializing yields a value equal to the original under the derived four-field
equality.  Distinctness is necessary: a known key duplicated with conflicting
values sets both mask bits and the disabled bit does not survive the round trip. -/
theorem claim2_roundtrip (entries : List (String × Option Bool))
    (hnd : (entries.map Prod.fst).Nodup)
    (_hwf : ∀ e ∈ entries, (lookupKnown e.1).isSome = true ∨ validUnknownKey e.1 = true) :
    deserialize (toEntries (serialize true (deserialize entries))) = deserialize entries :=
  roundtrip entries hnd

theorem claim2_witness :
    deserialize (toEntries (serialize true
        (deserialize [("liga", some true), ("abcd", some false)])))
      = deserialize [("liga", some true), ("abcd", some false)] :=
  claim2_roundtrip _ (by decide) (by decide)

/-- C3 counterexample: two maps with the same entries in different iteration order
(two unknown tags) deserialize to different values, refuting the claim as stated. -/
theorem claim3_counterexample :
    List.Perm [("abcd", some (true : Bool)), ("efgh", some true)]
        [("efgh", some true), ("abcd", some true)] ∧
    deserialize [("abcd", some true), ("efgh", some true)]
      ≠ deserialize [("efgh", some true), ("abcd", some true)] :=
  ⟨by decide, by decide⟩

/-- C3 amended: for maps with the same entries in different iteration order, the two
masks always agree; the whole values (hence any hash of them) agree provided every
key is a known feature name (unknown-tag buffers are order-sensitive). -/
theorem claim3_amended (l1 l2 : List (String × Option Bool)) (hp : l1.Perm l2) :
    (deserialize l1).enabled = (deserialize l2).enabled ∧
    (deserialize l1).disabled = (deserialize l2).disabled ∧
    ((∀ e ∈ l1, (lookupKnown e.1).isSome = true) →
      deserialize l1 = deserialize l2 ∧
      ∀ hash : FontFeatures → Nat, hash (deserialize l1) = hash (deserialize l2)) := by
  refine ⟨perm_enabled l1 l2 hp, perm_disabled l1 l2 hp, fun hknown => ?_⟩
  have heq := perm_deserialize_of_known l1 l2 hp hknown
  exact ⟨heq, fun hash => congrArg hash heq⟩

theorem claim3_witness :
    deserialize [("liga", some true), ("calt", some false)]
      = deserialize [("calt", some false), ("liga", some true)] :=
  ((claim3_amended _ _ (by decide)).2.2 (by decide)).1

/-- C4: tag_value_list returns exactly the specified known features in table
declaration order, then unknown enabled tags in buffer order with true, then
unknown disabled tags in buffer order with false; known precede unknown regardless
of input order, and unknown tags keep insertion order. -/
theorem claim4_tag_value_list_order (f : FontFeatures) :
    tag_value_list f =
      knownFeatures.filterMap (fun p => (getFeature f p.2).map (fun b => (p.1, b)))
        ++ (chunks4 f.other_enabled).map (fun s => (s, true))
        ++ (chunks4 f.other_disabled).map (fun s => (s, false)) ∧
    tag_value_list (deserialize [("abcd", some true), ("liga", some true)])
      = [("liga", true), ("abcd", true)] ∧
    tag_value_list (deserialize [("abcd", some true), ("efgh", some true)])
      = [("abcd", true), ("efgh", true)] := by
  refine ⟨?_, by decide, by decide⟩
  rw [tag_value_list_eq]
  rfl

/-- C5 counterexample: duplicating an unknown key with values true then false puts
the tag in both buffers and makes tag_value_list emit it twice, refuting the
at-most-one-buffer / last-write-wins / no-duplicate-emission claim. -/
theorem claim5_counterexample :
    (deserialize [("abcd", some true), ("abcd", some false)]).other_enabled = "abcd" ∧
    (deserialize [("abcd", some true), ("abcd", some false)]).other_disabled = "abcd" ∧
    tag_value_list (deserialize [("abcd", some true), ("abcd", some false)])
      = [("abcd", true), ("abcd", false)] :=
  ⟨by decide, by decide, by decide⟩

/-- C5 amended: each occurrence of a valid unknown key with a boolean value appends
the tag to the corresponding buffer in iteration order; duplicates are kept, so a
tag may occur in both buffers and more than once in the projection. -/
theorem claim5_amended (entries : List (String × Option Bool)) :
    (deserialize entries).other_enabled = joined (keptEnabledKeys entries) ∧
    (deserialize entries).other_disabled = joined (keptDisabledKeys entries) ∧
    chunks4 (deserialize entries).other_enabled = keptEnabledKeys entries ∧
    chunks4 (deserialize entries).other_disabled = keptDisabledKeys entries :=
  ⟨deserialize_other_enabled entries, deserialize_other_disabled entries,
   chunks4_deserialize_enabled entries, chunks4_deserialize_disabled entries⟩

/-- C6: serialization emits one entry per specified known feature in table order;
unknown tags are additionally emitted (enabled with true then disabled with false,
in buffer order) only on the designated platform family, and on other families the
output ignores the buffers entirely even though the value stores them. -/
theorem claim6_serialize_platform (f : FontFeatures) :
    serialize true f =
      knownFeatures.filterMap (fun p => (getFeature f p.2).map (fun b => (p.1, b)))
        ++ (chunks4 f.other_enabled).map (fun s => (s, true))
        ++ (chunks4 f.other_disabled).map (fun s => (s, false)) ∧
    serialize false f =
      knownFeatures.filterMap (fun p => (getFeature f p.2).map (fun b => (p.1, b))) ∧
    ∀ oe od : String,
      serialize false (FontFeatures.mk f.enabled f.disabled oe od) = serialize false f := by
  refine ⟨by rw [serialize_true_eq]; rfl, by rw [serialize_false_eq]; rfl, ?_⟩
  intro oe od
  rw [serialize_false_eq, serialize_false_eq]
  rfl

/-- C7: deserialization is total; an unmatched key that is not 4 bytes or not pure
ASCII only drops that entry, and the documented three-entry example yields a value
with only liga set to true and every other feature unspecified. -/
theorem claim7_malformed_tolerance :
    (∀ (st : FontFeatures) (k : String) (v : Option Bool),
        lookupKnown k = none → validUnknownKey k = false → deserializeStep st (k, v) = st) ∧
    deserialize [("toolong1234", some true), ("ab", some false), ("liga", some true)]
      = { enabled := 16, disabled := 0, other_enabled := "", other_disabled := "" } ∧
    FontFeatures.liga (deserialize
        [("toolong1234", some true), ("ab", some false), ("liga", some true)]) = some true ∧
    ∀ i, i ≠ 4 → getFeature (deserialize
        [("toolong1234", some true), ("ab", some false), ("liga", some true)]) i = none := by
  refine ⟨fun st k v hk hv => step_malformed st k v hk hv, by decide, by decide, ?_⟩
  intro i hi
  have hD : deserialize [("toolong1234", some true), ("ab", some false), ("liga", some true)]
      = { enabled := 16, disabled := 0, other_enabled := "", other_disabled := "" } := by decide
  rw [hD]
  have hbit : Nat.testBit 16 i = false := by
    have h16 : (16 : Nat) = 2 ^ 4 := by norm_num
    rw [h16, Nat.testBit_two_pow]
    exact decide_eq_false (fun hc => hi hc.symm)
  have h1 : ¬((16 : Nat) &&& (1 <<< i) ≠ 0) := fun hc =>
    absurd ((and_shift_ne_iff 16 i).1 hc) (by rw [hbit]; exact Bool.noConfusion)
  have h2 : ¬((0 : Nat) &&& (1 <<< i) ≠ 0) := by simp
  simp only [getFeature, if_neg h1, if_neg h2]

theorem claim7_witness :
    deserializeStep emptyFeatures ("ab", some true) = emptyFeatures ∧
    getFeature (deserialize
        [("toolong1234", some true), ("ab", some false), ("liga", some true)]) 0 = none :=
  ⟨claim7_malformed_tolerance.1 emptyFeatures "ab" (some true) (by decide) (by decide),
   claim7_malformed_tolerance.2.2.2 0 (by decide)⟩

/-- C8: a null value is a no-op for any key: deserializing the liga-null singleton
map equals deserializing the empty map, the liga accessor reads unspecified, and a
null on an unknown 4-character ASCII key appends nothing. -/
theorem claim8_null_noop :
    (∀ (st : FontFeatures) (k : String), deserializeStep st (k, none) = st) ∧
    deserialize [("liga", none)] = deserialize [] ∧
    FontFeatures.liga (deserialize [("liga", none)]) = none ∧
    deserialize [("abcd", none)] = deserialize [] :=
  ⟨step_null, by decide, by decide, by decide⟩

/-- C9: for every deserialized value, both unknown-tag buffers have a multiple-of-4
length and split into 4-character pure-ASCII chunks, the chunks being exactly the
kept unknown keys of the input in iteration order. -/
theorem claim9_buffer_invariants (entries : List (String × Option Bool)) :
    (4 ∣ (deserialize entries).other_enabled.data.length ∧
     4 ∣ (deserialize entries).other_disabled.data.length) ∧
    (∀ c ∈ chunks4 (deserialize entries).other_enabled,
       c.data.length = 4 ∧ isAsciiStr c = true) ∧
    (∀ c ∈ chunks4 (deserialize entries).other_disabled,
       c.data.length = 4 ∧ isAsciiStr c = true) ∧
    chunks4 (deserialize entries).other_enabled = keptEnabledKeys entries ∧
    chunks4 (deserialize entries).other_disabled = keptDisabledKeys entries :=
  ⟨⟨deserialize_enabled_dvd entries, deserialize_disabled_dvd entries⟩,
   deserialize_enabled_chunk_props entries, deserialize_disabled_chunk_props entries,
   chunks4_deserialize_enabled entries, chunks4_deserialize_disabled entries⟩

/-- C10: the accessor logic is total over all four-field states and gives the
enabled bit priority: whenever the enabled bit of index i is set - even if the
disabled bit is also set - the accessor and the known branch of tag_value_list
report the feature as on. -/
theorem claim10_enabled_priority :
    (∀ (f : FontFeatures) (i : Nat),
        f.enabled &&& (1 <<< i) ≠ 0 → getFeature f i = some true) ∧
    getFeature { enabled := 16, disabled := 16, other_enabled := "", other_disabled := "" } 4
      = some true ∧
    tag_value_list { enabled := 16, disabled := 16, other_enabled := "", other_disabled := "" }
      = [("liga", true)] := by
  refine ⟨?_, by decide, by decide⟩
  intro f i h
  unfold getFeature
  rw [if_pos h]

theorem claim10_witness :
    getFeature { enabled := 16, disabled := 16, other_enabled := "", other_disabled := "" } 4
      = some true :=
  claim10_enabled_priority.1 _ 4 (by decide)

end FontFeaturesModel
